import Mathlib

/-!
Verification of the mask-refinement engine of the Imgr repository
(`backend/api/mask_refinement_service.py`).

The engine turns a binary mask into an opacity matte:
morphological cleanup (`smooth_open_close`) followed by
distance-transform based feathering (`_feather` and its profile wrappers),
dispatched by `apply_feathering`.

Shallow embedding conventions:
* a binary mask is a pair of dimensions plus a total `Int → Int → Bool`
  pixel function; all operations only consume in-bounds pixels, with the
  OpenCV border conventions made explicit (`getB`);
* `cv2.getStructuringElement(MORPH_ELLIPSE, (2r+1, 2r+1))` is embedded as
  the list of offsets `kernelOffsets r`, using the OpenCV ellipse row
  formula `dx = round(c * sqrt((r^2 - dy^2)/r^2))` with round-half-to-even
  (ties cannot occur since the square root of a natural number is never a
  half-integer);
* `cv2.erode` treats out-of-bounds pixels as foreground and `cv2.dilate`
  treats them as background (the OpenCV default border values for
  morphology);
* `scipy.ndimage.distance_transform_edt(~M)` is the exact Euclidean
  distance to the nearest true pixel; it is embedded as the square root of
  the minimum squared Euclidean distance over all true pixels
  (`sqDistField`), which is exactly what an exact EDT computes;
* float arithmetic is modelled over `ℝ`.
-/

namespace Imgr

open scoped Classical

/-- A binary mask: dimensions plus a total pixel function.  Only the values
at `0 ≤ i < h`, `0 ≤ j < w` are meaningful; every operation reads
out-of-bounds pixels through an explicit border value. -/
structure Mask where
  h : Nat
  w : Nat
  data : Int → Int → Bool

/-- An opacity matte: a real-valued grid (the `np.float32` arrays of the
source, modelled over `ℝ`). -/
structure Matte where
  h : Nat
  w : Nat
  data : Int → Int → ℝ

/-- Read a mask pixel with an explicit border value for out-of-bounds
coordinates (OpenCV `BORDER_CONSTANT` with the morphology default:
`true` for erosion, `false` for dilation). -/
def getB (b : Bool) (m : Mask) (i j : Int) : Bool :=
  if 0 ≤ i ∧ i < (m.h : Int) ∧ 0 ≤ j ∧ j < (m.w : Int) then m.data i j else b

/-- All in-bounds cells of a mask, as `Int` coordinate pairs. -/
def cellList (m : Mask) : List (Int × Int) :=
  (List.range m.h).flatMap fun (i : Nat) =>
    (List.range m.w).map fun (j : Nat) => ((i : Int), (j : Int))

/-- `mask.any()` of numpy: is some in-bounds pixel true? -/
def maskAny (m : Mask) : Bool :=
  (cellList m).any fun p => m.data p.1 p.2

/-- `mask.all()` of numpy: are all in-bounds pixels true? -/
def maskAll (m : Mask) : Bool :=
  (cellList m).all fun p => m.data p.1 p.2

/-- The list of in-bounds true (interior) pixels. -/
def trueCells (m : Mask) : List (Int × Int) :=
  (cellList m).filter fun p => m.data p.1 p.2

/-- Integer square root by structural recursion (kernel-reducible;
equal to `Nat.sqrt` but evaluable by `decide`). -/
def isqrt : Nat → Nat
  | 0 => 0
  | n + 1 =>
    let d := isqrt n
    if (d + 1) * (d + 1) ≤ n + 1 then d + 1 else d

/-- Nearest integer to `Real.sqrt n` (the value OpenCV's
`saturate_cast<int>` produces from the ellipse row computation; the
half-way tie cannot occur for a natural number radicand). -/
def roundSqrt (n : Nat) : Nat :=
  let d := isqrt n
  if (2 * d + 1) ^ 2 ≤ 4 * n then d + 1 else d

/-- Half-width of row `dy` of the OpenCV `MORPH_ELLIPSE` structuring
element of size `(2r+1) × (2r+1)`: `round(c * sqrt((r² − dy²)/r²))` with
`c = r`, i.e. `round(sqrt(r² − dy²))` (for `r = 0` OpenCV forces the
factor to `0`, which coincides with `roundSqrt 0 = 0`). -/
def ellipseDx (r : Nat) (a : Nat) : Nat :=
  roundSqrt (r * r - a * a)

/-- Offsets (relative to the central anchor) of the true cells of
`cv2.getStructuringElement(cv2.MORPH_ELLIPSE, (2r+1, 2r+1))`, the
disk-like element built by `_disk_kernel`.  Row `i` runs over columns
`j1 = c - dx … j2 - 1 = c + dx`. -/
def kernelOffsets (r : Nat) : List (Int × Int) :=
  (List.range (2 * r + 1)).flatMap fun (i : Nat) =>
    (List.range (2 * (ellipseDx r ((i : Int) - (r : Int)).natAbs) + 1)).map fun (j : Nat) =>
      (((i : Int) - (r : Int)),
        ((j : Int) - (ellipseDx r ((i : Int) - (r : Int)).natAbs : Int)))

/-- `cv2.erode` with the disk element: a pixel stays true iff the whole
kernel neighbourhood is true, out-of-bounds pixels counting as true. -/
def erode (m : Mask) (r : Nat) : Mask :=
  { h := m.h, w := m.w,
    data := fun i j =>
      (kernelOffsets r).all fun o => getB true m (i + o.1) (j + o.2) }

/-- `cv2.dilate` with the disk element: a pixel becomes true iff some
kernel neighbour is true, out-of-bounds pixels counting as false. -/
def dilate (m : Mask) (r : Nat) : Mask :=
  { h := m.h, w := m.w,
    data := fun i j =>
      (kernelOffsets r).any fun o => getB false m (i + o.1) (j + o.2) }

/-- `cv2.morphologyEx(·, cv2.MORPH_OPEN, se)`: erosion then dilation. -/
def opening (m : Mask) (r : Nat) : Mask :=
  dilate (erode m r) r

/-- `cv2.morphologyEx(·, cv2.MORPH_CLOSE, se)`: dilation then erosion. -/
def closing (m : Mask) (r : Nat) : Mask :=
  erode (dilate m r) r

/-- The default value of the `r` parameter in the Python signature
`def smooth_open_close(mask, r: int = 2)`. -/
def smooth_open_close_default_r : Nat := 2

/-- `smooth_open_close`: opening with the disk element, then closing with
the same element (the `_to_u8`/`_to_bool` conversions of the source are
value-preserving on binary masks and are absorbed into the Bool model). -/
def smooth_open_close (m : Mask) (r : Nat) : Mask :=
  closing (opening m r) r

/-- Squared Euclidean distance between the pixel `(i, j)` and the cell
`q`, as a natural number. -/
def sqCell (i j : Int) (q : Int × Int) : Nat :=
  (i - q.1).natAbs ^ 2 + (j - q.2).natAbs ^ 2

/-- Minimum of a list of naturals (`none` on the empty list). -/
def listMinO : List Nat → Option Nat
  | [] => none
  | x :: xs =>
    match listMinO xs with
    | none => some x
    | some m => some (min x m)

/-- Squared exact Euclidean distance from `(i, j)` to the nearest true
pixel of `m`; `0` when the mask has no true pixel (the callers only read
it when the mask is non-empty).  `Real.sqrt` of this value is exactly the
`scipy.ndimage.distance_transform_edt` output for the complement mask. -/
def sqDistField (m : Mask) (i j : Int) : Nat :=
  (listMinO ((trueCells m).map fun q => sqCell i j q)).getD 0

/-- The exact Euclidean distance between the pixel `(i, j)` and the cell
`q` (the true metric, not a chessboard or Manhattan approximation). -/
noncomputable def euclidDist (i j : Int) (q : Int × Int) : ℝ :=
  Real.sqrt (((i - q.1 : Int) : ℝ) ^ 2 + ((j - q.2 : Int) : ℝ) ^ 2)

/-- `np.clip(x, 0.0, 1.0)`. -/
noncomputable def clip01 (x : ℝ) : ℝ :=
  min (max x 0) 1

/-- `np.zeros_like(mask, dtype=np.float32)`. -/
def zerosLike (m : Mask) : Matte :=
  { h := m.h, w := m.w, data := fun _ _ => 0 }

/-- `np.ones_like(mask, dtype=np.float32)`. -/
def onesLike (m : Mask) : Matte :=
  { h := m.h, w := m.w, data := fun _ _ => 1 }

/-- `mask.astype(np.float32)`: the {0.0, 1.0} cast of a boolean mask. -/
def boolToReal (m : Mask) : Matte :=
  { h := m.h, w := m.w, data := fun i j => if m.data i j = true then 1 else 0 }

/-- Profile `g(t) = 1 - t` of `feather_linear`. -/
noncomputable def gLinear (t : ℝ) : ℝ :=
  1 - t

/-- Profile `g(t) = exp(-k t)`, `k = log 100`, of `feather_exp`. -/
noncomputable def gExp (t : ℝ) : ℝ :=
  Real.exp (-(Real.log 100) * t)

/-- Profile `g(t) = (1 + cos(pi t))/2` of `feather_cos`. -/
noncomputable def gCos (t : ℝ) : ℝ :=
  0.5 * (1 + Real.cos (Real.pi * t))

/-- Profile `g(t) = 1/(1 + exp(a (t - 0.5)))`, `a = 12`, of
`feather_sigmoid`. -/
noncomputable def gSigmoid (t : ℝ) : ℝ :=
  1 / (1 + Real.exp (12 * (t - 0.5)))

/-- Profile `g(t) = 1 - t^p`, `p = 3`, of `feather_ease_out_power`
(`np.power(t, 3.0)` agrees with the cube on the domain `[0, 1]`). -/
noncomputable def gEaseOutPower (t : ℝ) : ℝ :=
  1 - t ^ (3 : ℕ)

/-- Profile `g(t) = exp(-k t^q)`, `q = 3`, `k = log 100`, of
`feather_ease_out_exp`. -/
noncomputable def gEaseOutExp (t : ℝ) : ℝ :=
  Real.exp (-(Real.log 100) * t ^ (3 : ℕ))

/-- The generic feathering helper `_feather` of the source:
trivial cases for empty / full masks, then per pixel
`1` on the interior, `g(clip(D/w, 0, 1))` on the exterior band `D < w`
(`D` the exact Euclidean distance field of the complement), `0` beyond. -/
noncomputable def _feather (mask : Mask) (g : ℝ → ℝ) (w : ℝ) : Matte :=
  if maskAny mask = false then zerosLike mask
  else if maskAll mask = true then onesLike mask
  else
    { h := mask.h, w := mask.w,
      data := fun i j =>
        if mask.data i j = true then 1
        else if Real.sqrt (sqDistField mask i j) < w then
          g (clip01 (Real.sqrt (sqDistField mask i j) / w))
        else 0 }

/-- `feather_linear`. -/
noncomputable def feather_linear (mask : Mask) (width : ℝ) : Matte :=
  _feather mask gLinear width

/-- `feather_exp`. -/
noncomputable def feather_exp (mask : Mask) (width : ℝ) : Matte :=
  _feather mask gExp width

/-- `feather_cos`. -/
noncomputable def feather_cos (mask : Mask) (width : ℝ) : Matte :=
  _feather mask gCos width

/-- `feather_sigmoid`. -/
noncomputable def feather_sigmoid (mask : Mask) (width : ℝ) : Matte :=
  _feather mask gSigmoid width

/-- `feather_ease_out_power`. -/
noncomputable def feather_ease_out_power (mask : Mask) (width : ℝ) : Matte :=
  _feather mask gEaseOutPower width

/-- `feather_ease_out_exp`. -/
noncomputable def feather_ease_out_exp (mask : Mask) (width : ℝ) : Matte :=
  _feather mask gEaseOutExp width

/-- The `FeatheringMethod` enumeration of the source. -/
inductive FeatheringMethod where
  | none
  | linear
  | exponential
  | cosine
  | sigmoid
  | ease_out_power
  | ease_out_exp
deriving DecidableEq

/-- The profile function selected by each method (the registry the spec
calls ProfileFunctionRegistry); `none` is a pass-through, never applied
by the engine. -/
noncomputable def gOf : FeatheringMethod → (ℝ → ℝ)
  | FeatheringMethod.none => fun t => t
  | FeatheringMethod.linear => gLinear
  | FeatheringMethod.exponential => gExp
  | FeatheringMethod.cosine => gCos
  | FeatheringMethod.sigmoid => gSigmoid
  | FeatheringMethod.ease_out_power => gEaseOutPower
  | FeatheringMethod.ease_out_exp => gEaseOutExp

/-- The matte computed by `apply_feathering`: fixed radius-4 cleanup, then
dispatch on the method (cast for `none`, the matching feather otherwise). -/
noncomputable def applyMatte (mask : Mask) (method : FeatheringMethod) (width : ℝ) : Matte :=
  let cleaned := smooth_open_close mask 4
  match method with
  | FeatheringMethod.none => boolToReal cleaned
  | FeatheringMethod.linear => feather_linear cleaned width
  | FeatheringMethod.exponential => feather_exp cleaned width
  | FeatheringMethod.cosine => feather_cos cleaned width
  | FeatheringMethod.sigmoid => feather_sigmoid cleaned width
  | FeatheringMethod.ease_out_power => feather_ease_out_power cleaned width
  | FeatheringMethod.ease_out_exp => feather_ease_out_exp cleaned width

/-- `apply_feathering`.  The `Except` channel records the single `raise`
of the source (`ValueError` on an unknown method); since every value of
the `FeatheringMethod` enumeration is dispatched, every call returns
`Except.ok` with a matte — the source performs no width validation. -/
noncomputable def apply_feathering (mask : Mask) (method : FeatheringMethod) (width : ℝ) :
    Except String Matte :=
  Except.ok (applyMatte mask method width)

/-- The all-false mask of the given dimensions. -/
def allFalse (h w : Nat) : Mask :=
  { h := h, w := w, data := fun _ _ => false }

/-- The all-true mask of the given dimensions. -/
def allTrue (h w : Nat) : Mask :=
  { h := h, w := w, data := fun _ _ => true }

/-- 21 × 21 mask with a single true pixel at the center `(10, 10)`
(scenario C of the spec). -/
def mask21 : Mask :=
  { h := 21, w := 21, data := fun i j => i == 10 && j == 10 }

/-- 9 × 9 mask with a single true pixel at the center `(4, 4)`. -/
def mask9 : Mask :=
  { h := 9, w := 9, data := fun i j => i == 4 && j == 4 }

/-- 9 × 9 mask whose true region is the 5 × 5 square on rows and columns
`2 … 6`. -/
def sq9 : Mask :=
  { h := 9, w := 9,
    data := fun i j => 2 ≤ i && i ≤ 6 && 2 ≤ j && j ≤ 6 }

/-! ### Arithmetic facts about the structuring element -/

theorem isqrt_spec (n : Nat) : isqrt n * isqrt n ≤ n ∧ n < (isqrt n + 1) * (isqrt n + 1) := by
  induction n with
  | zero => simp [isqrt]
  | succ n ih =>
    obtain ⟨h1, h2⟩ := ih
    by_cases h : (isqrt n + 1) * (isqrt n + 1) ≤ n + 1
    · rw [show isqrt (n + 1) = isqrt n + 1 from by simp [isqrt, h]]
      exact ⟨h, by nlinarith⟩
    · rw [show isqrt (n + 1) = isqrt n from by simp [isqrt, h]]
      exact ⟨by omega, by omega⟩

theorem isqrt_le_of_le {n r : Nat} (h : n ≤ r * r) : isqrt n ≤ r := by
  obtain ⟨h1, h2⟩ := isqrt_spec n
  by_contra hc
  push_neg at hc
  nlinarith

theorem isqrt_sq (r : Nat) : isqrt (r * r) = r := by
  obtain ⟨h1, h2⟩ := isqrt_spec (r * r)
  nlinarith

theorem roundSqrt_le {n r : Nat} (h : n ≤ r * r) : roundSqrt n ≤ r := by
  unfold roundSqrt
  have hd : isqrt n ≤ r := isqrt_le_of_le h
  by_cases hc : (2 * isqrt n + 1) ^ 2 ≤ 4 * n
  · simp only [if_pos hc]
    rcases Nat.lt_or_ge (isqrt n) r with hlt | hge
    · omega
    · have he : isqrt n = r := le_antisymm hd hge
      rw [he] at hc
      nlinarith
  · simp only [if_neg hc]
    exact hd

theorem roundSqrt_sq (r : Nat) : roundSqrt (r * r) = r := by
  unfold roundSqrt
  rw [isqrt_sq]
  have hc : ¬ (2 * r + 1) ^ 2 ≤ 4 * (r * r) := by nlinarith
  simp only [if_neg hc]

theorem ellipseDx_le (r a : Nat) : ellipseDx r a ≤ r :=
  roundSqrt_le (Nat.sub_le _ _)

theorem ellipseDx_zero (r : Nat) : ellipseDx r 0 = r := by
  unfold ellipseDx
  simpa using roundSqrt_sq r

theorem ellipseDx_self (r : Nat) : ellipseDx r r = 0 := by
  unfold ellipseDx
  simpa using roundSqrt_sq 0

/-- Membership in the ellipse structuring element: the offsets are exactly
the integer pairs within the per-row half-widths `ellipseDx`. -/
theorem mem_kernelOffsets {r : Nat} {a b : Int} :
    (a, b) ∈ kernelOffsets r ↔ a.natAbs ≤ r ∧ b.natAbs ≤ ellipseDx r a.natAbs := by
  constructor
  · intro hmem
    rcases List.mem_flatMap.mp hmem with ⟨i, hi, hm2⟩
    rcases List.mem_map.mp hm2 with ⟨j, hj, he⟩
    replace hi := List.mem_range.mp hi
    replace hj := List.mem_range.mp hj
    have ha : (i : Int) - (r : Int) = a := congrArg Prod.fst he
    have hb : (j : Int) - (ellipseDx r ((i : Int) - (r : Int)).natAbs : Int) = b :=
      congrArg Prod.snd he
    subst ha
    constructor
    · omega
    · omega
  · rintro ⟨h1, h2⟩
    have hNA : ((((a + (r : Int)).toNat : Nat) : Int) - (r : Int)).natAbs = a.natAbs := by
      omega
    refine List.mem_flatMap.mpr ⟨(a + (r : Int)).toNat, List.mem_range.mpr (by omega), ?_⟩
    refine List.mem_map.mpr
      ⟨(b + (ellipseDx r a.natAbs : Int)).toNat, List.mem_range.mpr ?_, ?_⟩
    · rw [hNA]
      omega
    · refine Prod.ext_iff.mpr ⟨?_, ?_⟩
      · show ((((a + (r : Int)).toNat : Nat) : Int) - (r : Int)) = a
        omega
      · show (((b + (ellipseDx r a.natAbs : Int)).toNat : Nat) : Int)
            - (ellipseDx r ((((a + (r : Int)).toNat : Nat) : Int) - (r : Int)).natAbs : Int) = b
        rw [hNA]
        omega

theorem zero_mem_kernelOffsets (r : Nat) : ((0 : Int), (0 : Int)) ∈ kernelOffsets r := by
  rw [mem_kernelOffsets]
  simp

/-! ### Mask-level lemmas -/

theorem mem_cellList {m : Mask} {p : Int × Int} :
    p ∈ cellList m ↔ ∃ i : Nat, i < m.h ∧ ∃ j : Nat, j < m.w ∧ p = ((i : Int), (j : Int)) := by
  constructor
  · intro hmem
    rcases List.mem_flatMap.mp hmem with ⟨i, hi, hm2⟩
    rcases List.mem_map.mp hm2 with ⟨j, hj, he⟩
    exact ⟨i, List.mem_range.mp hi, j, List.mem_range.mp hj, he.symm⟩
  · rintro ⟨i, hi, j, hj, he⟩
    exact List.mem_flatMap.mpr ⟨i, List.mem_range.mpr hi,
      List.mem_map.mpr ⟨j, List.mem_range.mpr hj, he.symm⟩⟩

theorem cell_mem_cellList {m : Mask} {i j : Nat} (hi : i < m.h) (hj : j < m.w) :
    ((i : Int), (j : Int)) ∈ cellList m :=
  mem_cellList.mpr ⟨i, hi, j, hj, rfl⟩

/-- `maskAny m = false` forces every in-bounds pixel to be false. -/
theorem data_false_of_maskAny_false {m : Mask} (h : maskAny m = false) {i j : Nat}
    (hi : i < m.h) (hj : j < m.w) : m.data i j = false := by
  have := List.any_eq_false.mp h _ (cell_mem_cellList hi hj)
  simpa using this

/-- A true in-bounds pixel forces `maskAny m = true`. -/
theorem maskAny_true_of_data {m : Mask} {i j : Nat} (hi : i < m.h) (hj : j < m.w)
    (hd : m.data i j = true) : maskAny m = true :=
  List.any_eq_true.mpr ⟨((i : Int), (j : Int)), cell_mem_cellList hi hj, hd⟩

/-- `maskAll m = true` forces every in-bounds pixel to be true. -/
theorem data_true_of_maskAll_true {m : Mask} (h : maskAll m = true) {i j : Nat}
    (hi : i < m.h) (hj : j < m.w) : m.data i j = true :=
  List.all_eq_true.mp h _ (cell_mem_cellList hi hj)

/-- A false in-bounds pixel forces `maskAll m = false`. -/
theorem maskAll_false_of_data {m : Mask} {i j : Nat} (hi : i < m.h) (hj : j < m.w)
    (hd : m.data i j = false) : maskAll m = false := by
  apply List.all_eq_false.mpr
  refine ⟨((i : Int), (j : Int)), cell_mem_cellList hi hj, ?_⟩
  simp [hd]

theorem mem_trueCells {m : Mask} {p : Int × Int} :
    p ∈ trueCells m ↔ p ∈ cellList m ∧ m.data p.1 p.2 = true := by
  unfold trueCells
  rw [List.mem_filter]

/-- `maskAny` is true exactly when the interior cell list is non-empty. -/
theorem trueCells_ne_nil_of_maskAny {m : Mask} (h : maskAny m = true) :
    trueCells m ≠ [] := by
  rcases List.any_eq_true.mp h with ⟨p, hp, hd⟩
  intro hnil
  exact absurd (hnil ▸ mem_trueCells.mpr ⟨hp, hd⟩) (List.not_mem_nil p)

/-- In-bounds mask reads through `getB` are plain data reads. -/
theorem getB_inb {m : Mask} (b : Bool) {i j : Nat} (hi : i < m.h) (hj : j < m.w) :
    getB b m i j = m.data i j := by
  unfold getB
  rw [if_pos]
  exact ⟨by omega, by omega, by omega, by omega⟩

/-- Two masks agree as images: same dimensions and same in-bounds pixels
(the out-of-bounds values of the total pixel functions are irrelevant to
every operation). -/
def MaskEq (m1 m2 : Mask) : Prop :=
  m1.h = m2.h ∧ m1.w = m2.w ∧
    ∀ i : Nat, i < m1.h → ∀ j : Nat, j < m1.w → m1.data i j = m2.data i j

theorem MaskEq.refl (m : Mask) : MaskEq m m :=
  ⟨rfl, rfl, fun _ _ _ _ => rfl⟩

theorem MaskEq.trans {m1 m2 m3 : Mask} (h12 : MaskEq m1 m2) (h23 : MaskEq m2 m3) :
    MaskEq m1 m3 := by
  obtain ⟨a1, a2, a3⟩ := h12
  obtain ⟨b1, b2, b3⟩ := h23
  refine ⟨a1.trans b1, a2.trans b2, fun i hi j hj => ?_⟩
  rw [a3 i hi j hj, b3 i (a1 ▸ hi) j (a2 ▸ hj)]

/-- `getB` only depends on the image (dimensions plus in-bounds pixels). -/
theorem getB_congr {m1 m2 : Mask} (h : MaskEq m1 m2) (b : Bool) (i j : Int) :
    getB b m1 i j = getB b m2 i j := by
  obtain ⟨hh, hw, hd⟩ := h
  unfold getB
  rw [hh, hw]
  split
  · rename_i hc
    obtain ⟨h1, h2, h3, h4⟩ := hc
    have e1 : ((i.toNat : Nat) : Int) = i := Int.toNat_of_nonneg h1
    have e2 : ((j.toNat : Nat) : Int) = j := Int.toNat_of_nonneg h3
    rw [← e1, ← e2]
    exact hd i.toNat (by omega) j.toNat (by omega)
  · rfl

theorem erode_congr {m1 m2 : Mask} (h : MaskEq m1 m2) (r : Nat) :
    MaskEq (erode m1 r) (erode m2 r) := by
  refine ⟨h.1, h.2.1, fun i _ j _ => ?_⟩
  show List.all _ _ = List.all _ _
  congr 1
  funext o
  exact getB_congr h true (i + o.1) (j + o.2)

theorem dilate_congr {m1 m2 : Mask} (h : MaskEq m1 m2) (r : Nat) :
    MaskEq (dilate m1 r) (dilate m2 r) := by
  refine ⟨h.1, h.2.1, fun i _ j _ => ?_⟩
  show List.any _ _ = List.any _ _
  congr 1
  funext o
  exact getB_congr h false (i + o.1) (j + o.2)

theorem smooth_open_close_congr {m1 m2 : Mask} (h : MaskEq m1 m2) (r : Nat) :
    MaskEq (smooth_open_close m1 r) (smooth_open_close m2 r) :=
  erode_congr (dilate_congr (dilate_congr (erode_congr h r) r) r) r

/-- Every in-bounds pixel is false. -/
def AllFalseOn (m : Mask) : Prop :=
  ∀ i : Nat, i < m.h → ∀ j : Nat, j < m.w → m.data i j = false

/-- Every in-bounds pixel is true. -/
def AllTrueOn (m : Mask) : Prop :=
  ∀ i : Nat, i < m.h → ∀ j : Nat, j < m.w → m.data i j = true

instance decAllFalseOn (m : Mask) : Decidable (AllFalseOn m) :=
  inferInstanceAs
    (Decidable (∀ i : Nat, i < m.h → ∀ j : Nat, j < m.w → m.data i j = false))

instance decAllTrueOn (m : Mask) : Decidable (AllTrueOn m) :=
  inferInstanceAs
    (Decidable (∀ i : Nat, i < m.h → ∀ j : Nat, j < m.w → m.data i j = true))

theorem getB_false_of_allFalse {m : Mask} (h : AllFalseOn m) (i j : Int) :
    getB false m i j = false := by
  unfold getB
  split
  · rename_i hc
    obtain ⟨h1, h2, h3, h4⟩ := hc
    have e1 : ((i.toNat : Nat) : Int) = i := Int.toNat_of_nonneg h1
    have e2 : ((j.toNat : Nat) : Int) = j := Int.toNat_of_nonneg h3
    rw [← e1, ← e2]
    exact h i.toNat (by omega) j.toNat (by omega)
  · rfl

theorem getB_true_of_allTrue {m : Mask} (h : AllTrueOn m) (i j : Int) :
    getB true m i j = true := by
  unfold getB
  split
  · rename_i hc
    obtain ⟨h1, h2, h3, h4⟩ := hc
    have e1 : ((i.toNat : Nat) : Int) = i := Int.toNat_of_nonneg h1
    have e2 : ((j.toNat : Nat) : Int) = j := Int.toNat_of_nonneg h3
    rw [← e1, ← e2]
    exact h i.toNat (by omega) j.toNat (by omega)
  · rfl

theorem allFalse_erode {m : Mask} (h : AllFalseOn m) (r : Nat) :
    AllFalseOn (erode m r) := by
  intro i hi j hj
  apply List.all_eq_false.mpr
  refine ⟨((0 : Int), (0 : Int)), zero_mem_kernelOffsets r, ?_⟩
  have hg : getB true m (i : Int) (j : Int) = m.data i j := getB_inb true hi hj
  simp [hg, h i hi j hj]

theorem allFalse_dilate {m : Mask} (h : AllFalseOn m) (r : Nat) :
    AllFalseOn (dilate m r) := by
  intro i hi j hj
  apply List.any_eq_false.mpr
  intro o _
  simp [getB_false_of_allFalse h]

theorem allTrue_erode {m : Mask} (h : AllTrueOn m) (r : Nat) :
    AllTrueOn (erode m r) := by
  intro i hi j hj
  apply List.all_eq_true.mpr
  intro o _
  exact getB_true_of_allTrue h _ _

theorem allTrue_dilate {m : Mask} (h : AllTrueOn m) (r : Nat) :
    AllTrueOn (dilate m r) := by
  intro i hi j hj
  apply List.any_eq_true.mpr
  refine ⟨((0 : Int), (0 : Int)), zero_mem_kernelOffsets r, ?_⟩
  have : getB false m ((i : Int) + 0) ((j : Int) + 0) = m.data i j := by
    rw [add_zero, add_zero]
    exact getB_inb false hi hj
  rw [this]
  exact h i hi j hj

theorem allFalse_smooth_open_close {m : Mask} (h : AllFalseOn m) (r : Nat) :
    AllFalseOn (smooth_open_close m r) :=
  allFalse_erode (allFalse_dilate (allFalse_dilate (allFalse_erode h r) r) r) r

theorem allTrue_smooth_open_close {m : Mask} (h : AllTrueOn m) (r : Nat) :
    AllTrueOn (smooth_open_close m r) :=
  allTrue_erode (allTrue_dilate (allTrue_dilate (allTrue_erode h r) r) r) r

theorem smooth_open_close_h (m : Mask) (r : Nat) : (smooth_open_close m r).h = m.h := rfl

theorem smooth_open_close_w (m : Mask) (r : Nat) : (smooth_open_close m r).w = m.w := rfl

/-- `maskAny` is false on a mask whose in-bounds pixels are all false. -/
theorem maskAny_eq_false {m : Mask} (h : AllFalseOn m) : maskAny m = false := by
  apply List.any_eq_false.mpr
  intro p hp
  rcases mem_cellList.mp hp with ⟨i, hi, j, hj, he⟩
  subst he
  simp [h i hi j hj]

/-- `maskAll` is true on a mask whose in-bounds pixels are all true. -/
theorem maskAll_eq_true {m : Mask} (h : AllTrueOn m) : maskAll m = true := by
  apply List.all_eq_true.mpr
  intro p hp
  rcases mem_cellList.mp hp with ⟨i, hi, j, hj, he⟩
  subst he
  exact h i hi j hj

/-! ### Minimum and distance-field lemmas -/

theorem listMinO_le {l : List Nat} {m a : Nat} (hm : listMinO l = some m) (ha : a ∈ l) :
    m ≤ a := by
  induction l generalizing m with
  | nil => cases ha
  | cons x xs ih =>
    rcases List.mem_cons.mp ha with he | hmem
    · subst he
      cases hxs : listMinO xs with
      | none => rw [listMinO, hxs] at hm; simp at hm; omega
      | some v => rw [listMinO, hxs] at hm; simp at hm; omega
    · cases hxs : listMinO xs with
      | none =>
        cases xs with
        | nil => cases hmem
        | cons y ys => rw [listMinO] at hxs; cases hys : listMinO ys <;> rw [hys] at hxs <;>
            simp at hxs
      | some v =>
        rw [listMinO, hxs] at hm
        simp at hm
        have := ih hxs hmem
        omega

theorem listMinO_mem {l : List Nat} {m : Nat} (hm : listMinO l = some m) : m ∈ l := by
  induction l generalizing m with
  | nil => simp [listMinO] at hm
  | cons x xs ih =>
    cases hxs : listMinO xs with
    | none =>
      rw [listMinO, hxs] at hm
      simp at hm
      simp [hm]
    | some v =>
      rw [listMinO, hxs] at hm
      simp at hm
      rcases Nat.le_total x v with hle | hle
      · rw [min_eq_left hle] at hm
        simp [hm]
      · rw [min_eq_right hle] at hm
        exact List.mem_cons.mpr (Or.inr (hm ▸ ih hxs))

theorem listMinO_isSome {l : List Nat} (h : l ≠ []) : ∃ m, listMinO l = some m := by
  cases l with
  | nil => exact absurd rfl h
  | cons x xs =>
    cases hxs : listMinO xs with
    | none => exact ⟨x, by rw [listMinO, hxs]⟩
    | some v => exact ⟨min x v, by rw [listMinO, hxs]⟩

/-- The squared distance field is a lower bound on the squared distance to
every interior cell. -/
theorem sqDistField_le {m : Mask} {i j : Int} {q : Int × Int}
    (hne : trueCells m ≠ []) (hq : q ∈ trueCells m) :
    sqDistField m i j ≤ sqCell i j q := by
  have hmap : ((trueCells m).map fun q => sqCell i j q) ≠ [] := by
    simpa using hne
  rcases listMinO_isSome hmap with ⟨v, hv⟩
  unfold sqDistField
  rw [hv]
  exact listMinO_le hv (List.mem_map.mpr ⟨q, hq, rfl⟩)

/-- The squared distance field is attained at some interior cell. -/
theorem sqDistField_attained {m : Mask} (i j : Int) (hne : trueCells m ≠ []) :
    ∃ q ∈ trueCells m, sqDistField m i j = sqCell i j q := by
  have hmap : ((trueCells m).map fun q => sqCell i j q) ≠ [] := by
    simpa using hne
  rcases listMinO_isSome hmap with ⟨v, hv⟩
  rcases List.mem_map.mp (listMinO_mem hv) with ⟨q, hq, he⟩
  refine ⟨q, hq, ?_⟩
  unfold sqDistField
  rw [hv]
  exact he.symm

/-- The squared cell distance, cast to `ℝ`, is the squared Euclidean
distance. -/
theorem sqCell_cast (i j : Int) (q : Int × Int) :
    ((sqCell i j q : Nat) : ℝ)
      = ((i - q.1 : Int) : ℝ) ^ 2 + ((j - q.2 : Int) : ℝ) ^ 2 := by
  unfold sqCell
  push_cast [Int.cast_natAbs]
  rw [sq_abs, sq_abs]

/-- The Euclidean distance field value at an exterior pixel equals
`euclidDist` to some interior cell and bounds it for every interior cell. -/
theorem sqrt_sqDistField_eq_euclid {m : Mask} (i j : Int) (hne : trueCells m ≠ []) :
    (∀ q ∈ trueCells m, Real.sqrt (sqDistField m i j) ≤ euclidDist i j q)
      ∧ ∃ q ∈ trueCells m, Real.sqrt (sqDistField m i j) = euclidDist i j q := by
  constructor
  · intro q hq
    unfold euclidDist
    rw [← sqCell_cast]
    apply Real.sqrt_le_sqrt
    exact_mod_cast sqDistField_le hne hq
  · rcases sqDistField_attained i j hne with ⟨q, hq, he⟩
    refine ⟨q, hq, ?_⟩
    unfold euclidDist
    rw [← sqCell_cast, he]

/-! ### Structure of the feathering helper and engine -/

theorem feather_of_empty {mask : Mask} (h : maskAny mask = false) (g : ℝ → ℝ) (w : ℝ) :
    _feather mask g w = zerosLike mask := by
  simp [_feather, h]

theorem feather_of_full {mask : Mask} (h1 : maskAny mask = true) (h2 : maskAll mask = true)
    (g : ℝ → ℝ) (w : ℝ) : _feather mask g w = onesLike mask := by
  simp [_feather, h1, h2]

theorem feather_of_mid {mask : Mask} (h1 : maskAny mask = true) (h2 : maskAll mask = false)
    (g : ℝ → ℝ) (w : ℝ) :
    _feather mask g w =
      { h := mask.h, w := mask.w,
        data := fun i j =>
          if mask.data i j = true then 1
          else if Real.sqrt (sqDistField mask i j) < w then
            g (clip01 (Real.sqrt (sqDistField mask i j) / w))
          else 0 } := by
  simp [_feather, h1, h2]

theorem feather_hh (mask : Mask) (g : ℝ → ℝ) (w : ℝ) : (_feather mask g w).h = mask.h := by
  unfold _feather
  split
  · rfl
  · split
    · rfl
    · rfl

theorem feather_ww (mask : Mask) (g : ℝ → ℝ) (w : ℝ) : (_feather mask g w).w = mask.w := by
  unfold _feather
  split
  · rfl
  · split
    · rfl
    · rfl

/-- For every method other than `none`, the engine is the generic helper
applied to the cleaned mask and the registry profile of the method. -/
theorem applyMatte_eq_feather {mask : Mask} {method : FeatheringMethod} (w : ℝ)
    (h : method ≠ FeatheringMethod.none) :
    applyMatte mask method w = _feather (smooth_open_close mask 4) (gOf method) w := by
  cases method
  · exact absurd rfl h
  · rfl
  · rfl
  · rfl
  · rfl
  · rfl
  · rfl

theorem applyMatte_hh (mask : Mask) (method : FeatheringMethod) (w : ℝ) :
    (applyMatte mask method w).h = mask.h := by
  cases method
  · rfl
  all_goals
    rw [applyMatte_eq_feather w (by intro hq; cases hq)]
    exact feather_hh _ _ _

theorem applyMatte_ww (mask : Mask) (method : FeatheringMethod) (w : ℝ) :
    (applyMatte mask method w).w = mask.w := by
  cases method
  · rfl
  all_goals
    rw [applyMatte_eq_feather w (by intro hq; cases hq)]
    exact feather_ww _ _ _

theorem apply_feathering_ok (mask : Mask) (method : FeatheringMethod) (w : ℝ) :
    apply_feathering mask method w = Except.ok (applyMatte mask method w) := rfl

/-! ### Profile function facts -/

theorem log_hundred_nonneg : (0 : ℝ) ≤ Real.log 100 :=
  Real.log_nonneg (by norm_num)

theorem clip01_nonneg (x : ℝ) : 0 ≤ clip01 x :=
  le_min (le_max_right x 0) zero_le_one

theorem clip01_le_one (x : ℝ) : clip01 x ≤ 1 :=
  min_le_right _ _

theorem clip01_of_unit {x : ℝ} (h0 : 0 ≤ x) (h1 : x ≤ 1) : clip01 x = x := by
  unfold clip01
  rw [max_eq_left h0, min_eq_left h1]

/-- Every registry profile maps `[0, 1]` into `[0, 1]`. -/
theorem gOf_mem_unit (method : FeatheringMethod) {t : ℝ} (h0 : 0 ≤ t) (h1 : t ≤ 1) :
    0 ≤ gOf method t ∧ gOf method t ≤ 1 := by
  have hk := log_hundred_nonneg
  cases method
  case none => exact ⟨h0, h1⟩
  case linear =>
    show (0 : ℝ) ≤ 1 - t ∧ (1 : ℝ) - t ≤ 1
    constructor
    · linarith
    · linarith
  case exponential =>
    unfold gOf gExp
    constructor
    · exact le_of_lt (Real.exp_pos _)
    · calc Real.exp (-(Real.log 100) * t) ≤ Real.exp 0 := by
            apply Real.exp_le_exp.mpr
            nlinarith
        _ = 1 := Real.exp_zero
  case cosine =>
    unfold gOf gCos
    have hc1 := Real.neg_one_le_cos (Real.pi * t)
    have hc2 := Real.cos_le_one (Real.pi * t)
    norm_num
    constructor
    · linarith
    · linarith
  case sigmoid =>
    unfold gOf gSigmoid
    have he := Real.exp_pos (12 * (t - 0.5))
    constructor
    · positivity
    · rw [div_le_one (by linarith)]
      linarith
  case ease_out_power =>
    show (0 : ℝ) ≤ 1 - t ^ (3 : ℕ) ∧ (1 : ℝ) - t ^ (3 : ℕ) ≤ 1
    have h3 : t ^ (3 : ℕ) ≤ 1 := by
      calc t ^ (3 : ℕ) ≤ 1 ^ (3 : ℕ) := by
            apply pow_le_pow_left₀ h0 h1
        _ = 1 := one_pow 3
    have h4 : 0 ≤ t ^ (3 : ℕ) := by positivity
    constructor
    · linarith
    · linarith
  case ease_out_exp =>
    unfold gOf gEaseOutExp
    have h4 : 0 ≤ t ^ (3 : ℕ) := by positivity
    constructor
    · exact le_of_lt (Real.exp_pos _)
    · calc Real.exp (-(Real.log 100) * t ^ (3 : ℕ)) ≤ Real.exp 0 := by
            apply Real.exp_le_exp.mpr
            nlinarith
        _ = 1 := Real.exp_zero

/-- C6: each of the six profile functions other than `none` (`linear`,
`exponential`, `cosine`, `sigmoid`, `ease_out_power`, `ease_out_exp`) is
non-increasing on `[0, 1]`: for `0 ≤ t1 < t2 ≤ 1`, `g(t1) ≥ g(t2)`. -/
theorem profiles_non_increasing (method : FeatheringMethod)
    (hm : method ≠ FeatheringMethod.none)
    {t1 t2 : ℝ} (h0 : 0 ≤ t1) (h12 : t1 < t2) (h2 : t2 ≤ 1) :
    gOf method t1 ≥ gOf method t2 := by
  show gOf method t2 ≤ gOf method t1
  have hk := log_hundred_nonneg
  cases method
  case none => exact absurd rfl hm
  case linear =>
    show (1 : ℝ) - t2 ≤ 1 - t1
    linarith
  case exponential =>
    unfold gOf gExp
    apply Real.exp_le_exp.mpr
    nlinarith
  case cosine =>
    unfold gOf gCos
    have hc : Real.cos (Real.pi * t2) ≤ Real.cos (Real.pi * t1) := by
      apply Real.cos_le_cos_of_nonneg_of_le_pi
      · exact mul_nonneg Real.pi_nonneg h0
      · exact mul_le_of_le_one_right Real.pi_nonneg h2
      · exact mul_le_mul_of_nonneg_left h12.le Real.pi_nonneg
    linarith
  case sigmoid =>
    unfold gOf gSigmoid
    have he1 := Real.exp_pos (12 * (t1 - 0.5))
    have hm : Real.exp (12 * (t1 - 0.5)) ≤ Real.exp (12 * (t2 - 0.5)) := by
      apply Real.exp_le_exp.mpr
      linarith
    apply one_div_le_one_div_of_le
    · linarith
    · linarith
  case ease_out_power =>
    show (1 : ℝ) - t2 ^ (3 : ℕ) ≤ 1 - t1 ^ (3 : ℕ)
    have h3 : t1 ^ (3 : ℕ) ≤ t2 ^ (3 : ℕ) := pow_le_pow_left₀ h0 h12.le 3
    linarith
  case ease_out_exp =>
    unfold gOf gEaseOutExp
    apply Real.exp_le_exp.mpr
    have h3 : t1 ^ (3 : ℕ) ≤ t2 ^ (3 : ℕ) := pow_le_pow_left₀ h0 h12.le 3
    nlinarith

/-- Witness for C6 at the concrete input `linear`, `t1 = 0`, `t2 = 1`. -/
theorem profiles_non_increasing_witness :
    gOf FeatheringMethod.linear 0 ≥ gOf FeatheringMethod.linear 1 :=
  profiles_non_increasing FeatheringMethod.linear (by intro h; cases h)
    le_rfl (by norm_num) le_rfl

/-- If the cleaned mask has no true pixel, every method produces the
all-zero matte. -/
theorem applyMatte_zero_of_empty {mask : Mask} (method : FeatheringMethod) (w : ℝ)
    (hAny : maskAny (smooth_open_close mask 4) = false) {i j : Nat}
    (hi : i < mask.h) (hj : j < mask.w) :
    (applyMatte mask method w).data i j = 0 := by
  by_cases hm : method = FeatheringMethod.none
  · subst hm
    show (boolToReal (smooth_open_close mask 4)).data i j = 0
    simp [boolToReal, data_false_of_maskAny_false hAny hi hj]
  · rw [applyMatte_eq_feather w hm, feather_of_empty hAny]
    rfl

/-- If the cleaned mask is entirely true, every method produces the
all-one matte. -/
theorem applyMatte_one_of_full {mask : Mask} (method : FeatheringMethod) (w : ℝ)
    (hAll : maskAll (smooth_open_close mask 4) = true) {i j : Nat}
    (hi : i < mask.h) (hj : j < mask.w) :
    (applyMatte mask method w).data i j = 1 := by
  have hd : (smooth_open_close mask 4).data i j = true :=
    data_true_of_maskAll_true hAll hi hj
  by_cases hm : method = FeatheringMethod.none
  · subst hm
    show (boolToReal (smooth_open_close mask 4)).data i j = 1
    simp [boolToReal, hd]
  · rw [applyMatte_eq_feather w hm,
      feather_of_full (maskAny_true_of_data (m := smooth_open_close mask 4) hi hj hd) hAll]
    rfl

/-! ### Claims about the engine -/

/-- C5: with `method = none` the engine returns the cleaned mask cast
pixel-for-pixel to `{0.0, 1.0}` and stops (in the embedding the cast is
produced directly from the cleaned mask; no distance field and no profile
appears in this branch). -/
theorem method_none_returns_cleaned_cast (mask : Mask) (w : ℝ) (A : Matte)
    (hok : apply_feathering mask FeatheringMethod.none w = Except.ok A) :
    A.h = mask.h ∧ A.w = mask.w ∧
      ∀ i j : Int,
        A.data i j = (if (smooth_open_close mask 4).data i j = true then (1 : ℝ) else 0) := by
  have hA : applyMatte mask FeatheringMethod.none w = A := Except.ok.inj hok
  subst hA
  exact ⟨rfl, rfl, fun i j => rfl⟩

/-- Witness for C5 at a concrete input. -/
theorem method_none_witness :
    (applyMatte (allFalse 4 4) FeatheringMethod.none 7).data 0 0
      = (if (smooth_open_close (allFalse 4 4) 4).data 0 0 = true then (1 : ℝ) else 0) :=
  (method_none_returns_cleaned_cast (allFalse 4 4) 7 _ rfl).2.2 0 0

/-- C2: for every mask and every method (including `sigmoid`), an
in-bounds pixel that is interior in the cleaned mask receives alpha
exactly `1.0`, and an exterior pixel whose exact Euclidean distance to
the nearest interior pixel is at least `width` receives alpha exactly
`0.0`, independently of the algebraic endpoint values of the profile. -/
theorem interior_one_far_exterior_zero (mask : Mask) (method : FeatheringMethod)
    (w : ℝ) (A : Matte) (i j : Nat) (hi : i < mask.h) (hj : j < mask.w)
    (hok : apply_feathering mask method w = Except.ok A) :
    ((smooth_open_close mask 4).data i j = true → A.data i j = 1)
      ∧ ((smooth_open_close mask 4).data i j = false →
          w ≤ Real.sqrt (sqDistField (smooth_open_close mask 4) i j) →
          A.data i j = 0) := by
  have hA : applyMatte mask method w = A := Except.ok.inj hok
  subst hA
  by_cases hm : method = FeatheringMethod.none
  · subst hm
    constructor
    · intro hd
      show (boolToReal (smooth_open_close mask 4)).data i j = 1
      simp [boolToReal, hd]
    · intro hd _
      show (boolToReal (smooth_open_close mask 4)).data i j = 0
      simp [boolToReal, hd]
  · rw [applyMatte_eq_feather w hm]
    by_cases hAny : maskAny (smooth_open_close mask 4) = true
    · by_cases hAll : maskAll (smooth_open_close mask 4) = true
      · constructor
        · intro _
          rw [feather_of_full hAny hAll]
          rfl
        · intro hd _
          exact absurd (data_true_of_maskAll_true hAll hi hj) (by simp [hd])
      · rw [feather_of_mid hAny (Bool.not_eq_true _ ▸ hAll)]
        constructor
        · intro hd
          show (if (smooth_open_close mask 4).data i j = true then (1 : ℝ)
              else if _ then _ else 0) = 1
          rw [if_pos hd]
        · intro hd hD
          show (if (smooth_open_close mask 4).data i j = true then (1 : ℝ)
              else if _ then _ else 0) = 0
          rw [if_neg (by simp [hd]), if_neg (not_lt.mpr hD)]
    · have hAny2 : maskAny (smooth_open_close mask 4) = false := by
        simpa using hAny
      constructor
      · intro hd
        exact absurd (data_false_of_maskAny_false hAny2 hi hj) (by simp [hd])
      · intro _ _
        rw [feather_of_empty hAny2]
        rfl

/-- Witness for C2: interior pixel of a full mask gets 1; the exterior
branch is exercised on an all-false mask (empty cleaned mask, zero
distance field, width 0). -/
theorem interior_exterior_witness :
    (applyMatte (allTrue 6 6) FeatheringMethod.sigmoid 10).data
        ((0 : Nat) : Int) ((0 : Nat) : Int) = 1
      ∧ (applyMatte (allFalse 6 6) FeatheringMethod.sigmoid 0).data
        ((0 : Nat) : Int) ((0 : Nat) : Int) = 0 := by
  have hB : AllTrueOn (smooth_open_close (allTrue 6 6) 4) :=
    allTrue_smooth_open_close (fun _ _ _ _ => rfl) 4
  constructor
  · exact (interior_one_far_exterior_zero (allTrue 6 6) FeatheringMethod.sigmoid 10
      (applyMatte (allTrue 6 6) FeatheringMethod.sigmoid 10)
      0 0 (by decide) (by decide) rfl).1 (hB 0 (by decide) 0 (by decide))
  · have hA : AllFalseOn (smooth_open_close (allFalse 6 6) 4) :=
      allFalse_smooth_open_close (fun _ _ _ _ => rfl) 4
    exact (interior_one_far_exterior_zero (allFalse 6 6) FeatheringMethod.sigmoid 0
      (applyMatte (allFalse 6 6) FeatheringMethod.sigmoid 0)
      0 0 (by decide) (by decide) rfl).2 (hA 0 (by decide) 0 (by decide))
      (le_trans le_rfl (Real.sqrt_nonneg _))

/-- C3 as stated is false of the code: at width `0 ≤ 0` with method
`linear`, `apply_feathering` does not fail — it returns a matte (the
source contains no width validation at all). -/
theorem width_zero_returns_matte :
    (0 : ℝ) ≤ 0 ∧
      apply_feathering (allTrue 10 10) FeatheringMethod.linear 0
        = Except.ok (applyMatte (allTrue 10 10) FeatheringMethod.linear 0) :=
  ⟨le_rfl, rfl⟩

/-- C3 amended: `apply_feathering` performs no width validation; with
`width ≤ 0` it still returns a matte, which coincides pixel-for-pixel
with the cleaned mask cast to `{0.0, 1.0}` (the ramp band `D < width` is
empty because distances are non-negative). -/
theorem width_nonpos_matte_eq_cleaned_cast (mask : Mask) (method : FeatheringMethod)
    (w : ℝ) (A : Matte) (i j : Nat) (hw : w ≤ 0) (hi : i < mask.h) (hj : j < mask.w)
    (hok : apply_feathering mask method w = Except.ok A) :
    A.data i j = (if (smooth_open_close mask 4).data i j = true then (1 : ℝ) else 0) := by
  have hA : applyMatte mask method w = A := Except.ok.inj hok
  subst hA
  by_cases hm : method = FeatheringMethod.none
  · subst hm
    rfl
  · rw [applyMatte_eq_feather w hm]
    by_cases hAny : maskAny (smooth_open_close mask 4) = true
    · by_cases hAll : maskAll (smooth_open_close mask 4) = true
      · rw [feather_of_full hAny hAll,
          if_pos (data_true_of_maskAll_true hAll hi hj)]
        rfl
      · rw [feather_of_mid hAny (Bool.not_eq_true _ ▸ hAll)]
        by_cases hd : (smooth_open_close mask 4).data i j = true
        · show (if _ = true then (1 : ℝ) else if _ then _ else 0) = _
          rw [if_pos hd, if_pos hd]
        · show (if _ = true then (1 : ℝ) else if _ then _ else 0) = _
          rw [if_neg hd, if_neg hd,
            if_neg (not_lt.mpr (hw.trans (Real.sqrt_nonneg _)))]
    · have hAny2 : maskAny (smooth_open_close mask 4) = false := by
        simpa using hAny
      rw [feather_of_empty hAny2,
        if_neg (by simp [data_false_of_maskAny_false hAny2 hi hj])]
      rfl

/-- Witness for the amended C3 at a concrete input with width `-1`. -/
theorem width_nonpos_witness :
    (applyMatte (allTrue 3 3) FeatheringMethod.cosine (-1)).data
        ((0 : Nat) : Int) ((0 : Nat) : Int)
      = (if (smooth_open_close (allTrue 3 3) 4).data ((0 : Nat) : Int) ((0 : Nat) : Int) = true
          then (1 : ℝ) else 0) :=
  width_nonpos_matte_eq_cleaned_cast (allTrue 3 3) FeatheringMethod.cosine (-1)
    (applyMatte (allTrue 3 3) FeatheringMethod.cosine (-1)) 0 0
    (by norm_num) (by decide) (by decide) rfl

/-- C4: for every mask and valid config, the matte has exactly the
dimensions of the input mask and all its in-bounds values lie in
`[0, 1]`. -/
theorem matte_shape_and_range (mask : Mask) (method : FeatheringMethod) (w : ℝ)
    (A : Matte) (_hw : 0 < w) (hok : apply_feathering mask method w = Except.ok A) :
    A.h = mask.h ∧ A.w = mask.w ∧
      ∀ i j : Nat, i < A.h → j < A.w → 0 ≤ A.data i j ∧ A.data i j ≤ 1 := by
  have hA : applyMatte mask method w = A := Except.ok.inj hok
  subst hA
  refine ⟨applyMatte_hh mask method w, applyMatte_ww mask method w, fun i j hi hj => ?_⟩
  by_cases hm : method = FeatheringMethod.none
  · subst hm
    show 0 ≤ (boolToReal (smooth_open_close mask 4)).data i j
      ∧ (boolToReal (smooth_open_close mask 4)).data i j ≤ 1
    unfold boolToReal
    dsimp only
    split
    · exact ⟨zero_le_one, le_rfl⟩
    · exact ⟨le_rfl, zero_le_one⟩
  · rw [applyMatte_eq_feather w hm]
    by_cases hAny : maskAny (smooth_open_close mask 4) = true
    · by_cases hAll : maskAll (smooth_open_close mask 4) = true
      · rw [feather_of_full hAny hAll]
        exact ⟨zero_le_one, le_rfl⟩
      · rw [feather_of_mid hAny (Bool.not_eq_true _ ▸ hAll)]
        dsimp only
        split
        · exact ⟨zero_le_one, le_rfl⟩
        · split
          · exact gOf_mem_unit method (clip01_nonneg _) (clip01_le_one _)
          · exact ⟨le_rfl, zero_le_one⟩
    · have hAny2 : maskAny (smooth_open_close mask 4) = false := by
        simpa using hAny
      rw [feather_of_empty hAny2]
      exact ⟨le_rfl, zero_le_one⟩

/-- Witness for C4 at a concrete input. -/
theorem matte_shape_range_witness :
    (applyMatte (allTrue 4 4) FeatheringMethod.ease_out_exp 10).h = 4
      ∧ 0 ≤ (applyMatte (allTrue 4 4) FeatheringMethod.ease_out_exp 10).data
          ((1 : Nat) : Int) ((2 : Nat) : Int)
      ∧ (applyMatte (allTrue 4 4) FeatheringMethod.ease_out_exp 10).data
          ((1 : Nat) : Int) ((2 : Nat) : Int) ≤ 1 := by
  have h := matte_shape_and_range (allTrue 4 4) FeatheringMethod.ease_out_exp 10
    (applyMatte (allTrue 4 4) FeatheringMethod.ease_out_exp 10) (by norm_num) rfl
  have hv := h.2.2 1 2 (by rw [h.1]; decide) (by rw [h.2.1]; decide)
  exact ⟨h.1, hv.1, hv.2⟩

/-- C7: if the cleaned mask has no true pixel the engine returns an
all-zero matte of the input's shape; if the cleaned mask is entirely true
it returns an all-one matte of the input's shape, for every method. -/
theorem degenerate_mask_shortcuts (mask : Mask) (method : FeatheringMethod) (w : ℝ)
    (A : Matte) (hok : apply_feathering mask method w = Except.ok A) :
    (maskAny (smooth_open_close mask 4) = false →
      A.h = mask.h ∧ A.w = mask.w ∧ ∀ i j : Nat, i < A.h → j < A.w → A.data i j = 0)
      ∧ (maskAll (smooth_open_close mask 4) = true →
        A.h = mask.h ∧ A.w = mask.w ∧ ∀ i j : Nat, i < A.h → j < A.w → A.data i j = 1) := by
  have hA : applyMatte mask method w = A := Except.ok.inj hok
  subst hA
  constructor
  · intro hAny
    refine ⟨applyMatte_hh mask method w, applyMatte_ww mask method w, fun i j hi hj => ?_⟩
    have hi2 : i < mask.h := by rw [← applyMatte_hh mask method w]; exact hi
    have hj2 : j < mask.w := by rw [← applyMatte_ww mask method w]; exact hj
    exact applyMatte_zero_of_empty method w hAny hi2 hj2
  · intro hAll
    refine ⟨applyMatte_hh mask method w, applyMatte_ww mask method w, fun i j hi hj => ?_⟩
    have hi2 : i < mask.h := by rw [← applyMatte_hh mask method w]; exact hi
    have hj2 : j < mask.w := by rw [← applyMatte_ww mask method w]; exact hj
    exact applyMatte_one_of_full method w hAll hi2 hj2

/-- Witness for C7: scenario A (10×10 all-false mask, width 10, linear →
zero matte) and scenario B (10×10 all-true mask, any method → one matte),
at the pixel (3, 4). -/
theorem degenerate_scenarios_witness :
    (applyMatte (allFalse 10 10) FeatheringMethod.linear 10).data
        ((3 : Nat) : Int) ((4 : Nat) : Int) = 0
      ∧ (applyMatte (allTrue 10 10) FeatheringMethod.cosine 10).data
        ((3 : Nat) : Int) ((4 : Nat) : Int) = 1 := by
  have hA : AllFalseOn (smooth_open_close (allFalse 10 10) 4) :=
    allFalse_smooth_open_close (fun _ _ _ _ => rfl) 4
  have hB : AllTrueOn (smooth_open_close (allTrue 10 10) 4) :=
    allTrue_smooth_open_close (fun _ _ _ _ => rfl) 4
  constructor
  · exact ((degenerate_mask_shortcuts (allFalse 10 10) FeatheringMethod.linear 10
      (applyMatte (allFalse 10 10) FeatheringMethod.linear 10)
      rfl).1 (maskAny_eq_false hA)).2.2 3 4
      (by rw [applyMatte_hh]; decide) (by rw [applyMatte_ww]; decide)
  · exact ((degenerate_mask_shortcuts (allTrue 10 10) FeatheringMethod.cosine 10
      (applyMatte (allTrue 10 10) FeatheringMethod.cosine 10)
      rfl).2 (maskAll_eq_true hB)).2.2 3 4
      (by rw [applyMatte_hh]; decide) (by rw [applyMatte_ww]; decide)

/-- C1: for any cleaned mask with at least one interior pixel, any method
other than `none`, and any exterior in-bounds pixel whose exact Euclidean
distance `D = sqrt(sqDistField)` to the nearest interior pixel satisfies
`D < width`, the feathering stage assigns `alpha = g(clamp(D/width, 0, 1))`;
moreover `D` is the exact Euclidean distance: it bounds `euclidDist` to
every interior cell from below and is attained at one of them (so it is no
chessboard or Manhattan approximation). -/
theorem feather_ramp_exact_euclidean (mask : Mask) (method : FeatheringMethod) (w : ℝ)
    (i j : Nat) (_hm : method ≠ FeatheringMethod.none) (hi : i < mask.h) (hj : j < mask.w)
    (hext : mask.data i j = false) (hne : maskAny mask = true)
    (hband : Real.sqrt (sqDistField mask i j) < w) :
    (_feather mask (gOf method) w).data i j
        = gOf method (clip01 (Real.sqrt (sqDistField mask i j) / w))
      ∧ (∀ q ∈ trueCells mask, Real.sqrt (sqDistField mask i j) ≤ euclidDist i j q)
      ∧ ∃ q ∈ trueCells mask, Real.sqrt (sqDistField mask i j) = euclidDist i j q := by
  have hAll : maskAll mask = false := maskAll_false_of_data hi hj hext
  have hne2 : trueCells mask ≠ [] := trueCells_ne_nil_of_maskAny hne
  refine ⟨?_, (sqrt_sqDistField_eq_euclid (i : Int) (j : Int) hne2).1,
    (sqrt_sqDistField_eq_euclid (i : Int) (j : Int) hne2).2⟩
  rw [feather_of_mid hne hAll]
  show (if mask.data (i : Int) (j : Int) = true then (1 : ℝ)
      else if _ then _ else 0) = _
  rw [if_neg (by simp [hext]), if_pos hband]

/-- Witness for C1: scenario C.  21 × 21 mask with one true pixel at the
center, cleaning radius forced to 0 (a no-op), width 10, method `linear`;
the pixel at Euclidean distance 5 from the center (offset (3, 4)) gets
alpha within 1/1000 of 0.5. -/
theorem feather_ramp_scenario_c :
    |(feather_linear (smooth_open_close mask21 0) 10).data
        ((13 : Nat) : Int) ((14 : Nat) : Int) - 0.5| ≤ 1 / 1000 := by
  have h25 : sqDistField (smooth_open_close mask21 0) ((13 : Nat) : Int) ((14 : Nat) : Int)
      = 25 := by decide
  have hs : Real.sqrt ((25 : Nat) : ℝ) = 5 := by
    rw [show ((25 : Nat) : ℝ) = 5 ^ 2 by norm_num,
      Real.sqrt_sq (by norm_num : (0 : ℝ) ≤ 5)]
  have h := feather_ramp_exact_euclidean (smooth_open_close mask21 0)
    FeatheringMethod.linear 10 13 14 (by intro hq; cases hq)
    (by decide) (by decide) (by decide) (by decide)
    (by rw [h25, hs]; norm_num)
  have h1 := h.1
  rw [h25, hs] at h1
  have hc : clip01 ((5 : ℝ) / 10) = 1 / 2 := by
    rw [show (5 : ℝ) / 10 = 1 / 2 by norm_num]
    exact clip01_of_unit (by norm_num) (by norm_num)
  rw [hc] at h1
  rw [show feather_linear (smooth_open_close mask21 0) 10
      = _feather (smooth_open_close mask21 0) (gOf FeatheringMethod.linear) 10 from rfl, h1]
  show |gLinear (1 / 2) - 0.5| ≤ 1 / 1000
  unfold gLinear
  norm_num

/-- C9 as stated is false of the code: on the 21 × 21 single-pixel mask
with width 10 and method `exponential`, the pixel at offset (0, 10) from
the center has exact distance 10 = width, i.e. normalized distance t = 1;
it lies outside the band `D < width` and receives alpha = 0, which is not
within 1/1000 of 0.01. -/
theorem exp_at_width_alpha_zero :
    (feather_exp mask21 10).data ((10 : Nat) : Int) ((20 : Nat) : Int) = 0
      ∧ ¬ (|(feather_exp mask21 10).data ((10 : Nat) : Int) ((20 : Nat) : Int) - 0.01|
            ≤ 1 / 1000) := by
  have hz : (feather_exp mask21 10).data ((10 : Nat) : Int) ((20 : Nat) : Int) = 0 := by
    have hAny : maskAny mask21 = true := by decide
    have hAll : maskAll mask21 = false := by decide
    show (_feather mask21 gExp 10).data _ _ = 0
    rw [feather_of_mid hAny hAll]
    show (if mask21.data ((10 : Nat) : Int) ((20 : Nat) : Int) = true then (1 : ℝ)
        else if _ then _ else 0) = 0
    have h100 : sqDistField mask21 ((10 : Nat) : Int) ((20 : Nat) : Int) = 100 := by decide
    have hs : Real.sqrt ((100 : Nat) : ℝ) = 10 := by
      rw [show ((100 : Nat) : ℝ) = 10 ^ 2 by norm_num,
        Real.sqrt_sq (by norm_num : (0 : ℝ) ≤ 10)]
    rw [if_neg (by decide), if_neg (by rw [h100, hs]; exact lt_irrefl 10)]
  refine ⟨hz, ?_⟩
  rw [hz, zero_sub, abs_neg, abs_of_pos (by norm_num : (0 : ℝ) < 0.01)]
  norm_num

/-- C9 amended: the exponential profile is `g(t) = exp(-k t)` with
`k = log 100`, and its value at `t = 1` is exactly `1/100 = 0.01` (so
within any positive tolerance of 0.01); but a pixel whose distance equals
the feather width exactly (normalized distance t = 1) lies outside the
ramp band `D < width` and receives alpha = 0, not the profile value. -/
theorem exp_profile_value :
    (∀ t : ℝ, gOf FeatheringMethod.exponential t = Real.exp (-(Real.log 100) * t))
      ∧ gOf FeatheringMethod.exponential 1 = 1 / 100
      ∧ |gOf FeatheringMethod.exponential 1 - 0.01| ≤ 1 / 1000
      ∧ ∀ (mask : Mask) (w : ℝ) (i j : Nat), i < mask.h → j < mask.w →
          mask.data i j = false → maskAny mask = true →
          Real.sqrt (sqDistField mask i j) = w →
          (_feather mask (gOf FeatheringMethod.exponential) w).data i j = 0 := by
  have hval : gOf FeatheringMethod.exponential 1 = 1 / 100 := by
    show gExp 1 = 1 / 100
    unfold gExp
    rw [mul_one, Real.exp_neg, Real.exp_log (by norm_num : (0 : ℝ) < 100)]
    norm_num
  refine ⟨fun t => rfl, hval, by rw [hval]; norm_num, ?_⟩
  intro mask w i j hi hj hext hne hD
  have hAll : maskAll mask = false := maskAll_false_of_data hi hj hext
  rw [feather_of_mid hne hAll]
  show (if mask.data (i : Int) (j : Int) = true then (1 : ℝ)
      else if _ then _ else 0) = 0
  rw [if_neg (by simp [hext]), if_neg (by rw [hD]; exact lt_irrefl w)]

/-- Witness for the amended C9 on the 21 × 21 single-pixel mask at the
pixel of distance exactly 10 = width. -/
theorem exp_profile_witness :
    (_feather mask21 (gOf FeatheringMethod.exponential) 10).data
        ((10 : Nat) : Int) ((20 : Nat) : Int) = 0 := by
  apply exp_profile_value.2.2.2 mask21 10 10 20 (by decide) (by decide) (by decide) (by decide)
  have h100 : sqDistField mask21 ((10 : Nat) : Int) ((20 : Nat) : Int) = 100 := by decide
  rw [h100, show ((100 : Nat) : ℝ) = 10 ^ 2 by norm_num,
    Real.sqrt_sq (by norm_num : (0 : ℝ) ≤ 10)]

/-- C10: a non-empty input mask can produce the all-zero matte for every
method and every positive width, without any error: on the 9 × 9 mask with
a single true pixel, the fixed radius-4 opening inside `apply_feathering`
erases the pixel, the cleaned mask is empty, and every method returns the
all-zero matte (for `none`, the cast of the empty cleaned mask). -/
theorem nonempty_mask_all_zero_matte :
    maskAny mask9 = true
      ∧ ∀ (method : FeatheringMethod) (w : ℝ) (A : Matte), 0 < w →
          apply_feathering mask9 method w = Except.ok A →
          ∀ i j : Nat, i < A.h → j < A.w → A.data i j = 0 := by
  constructor
  · decide
  · intro method w A _hw hok i j hi hj
    have hA : applyMatte mask9 method w = A := Except.ok.inj hok
    subst hA
    have hAF : AllFalseOn (erode mask9 4) := by decide
    have hclean : AllFalseOn (smooth_open_close mask9 4) := by
      show AllFalseOn (erode (dilate (dilate (erode mask9 4) 4) 4) 4)
      exact allFalse_erode (allFalse_dilate (allFalse_dilate hAF 4) 4) 4
    have hi2 : i < mask9.h := by rw [← applyMatte_hh mask9 method w]; exact hi
    have hj2 : j < mask9.w := by rw [← applyMatte_ww mask9 method w]; exact hj
    exact applyMatte_zero_of_empty method w (maskAny_eq_false hclean) hi2 hj2

/-- Witness for C10 at method `sigmoid`, width 10, pixel (0, 0). -/
theorem nonempty_mask_witness :
    maskAny mask9 = true
      ∧ (applyMatte mask9 FeatheringMethod.sigmoid 10).data
          ((0 : Nat) : Int) ((0 : Nat) : Int) = 0 :=
  ⟨nonempty_mask_all_zero_matte.1,
    nonempty_mask_all_zero_matte.2 FeatheringMethod.sigmoid 10
      (applyMatte mask9 FeatheringMethod.sigmoid 10) (by norm_num) rfl 0 0
      (by rw [applyMatte_hh]; decide) (by rw [applyMatte_ww]; decide)⟩

/-- C8's "the cleaning radius defaults to r = 4" is false of the code: the
Python signature of `smooth_open_close` declares `r = 2` as its default,
and on the 9 × 9 mask holding a 5 × 5 square, cleanup at the default
radius keeps the center pixel while cleanup at radius 4 erases it. -/
theorem default_radius_not_four :
    (smooth_open_close sq9 smooth_open_close_default_r).data
        ((4 : Nat) : Int) ((4 : Nat) : Int) = true
      ∧ (smooth_open_close sq9 4).data ((4 : Nat) : Int) ((4 : Nat) : Int) = false := by
  constructor
  · decide
  · have hAF : AllFalseOn (erode sq9 4) := by decide
    have hclean : AllFalseOn (smooth_open_close sq9 4) := by
      show AllFalseOn (erode (dilate (dilate (erode sq9 4) 4) 4) 4)
      exact allFalse_erode (allFalse_dilate (allFalse_dilate hAF 4) 4) 4
    exact hclean 4 (by decide) 4 (by decide)

/-- C8 amended: `smooth_open_close` applies opening (erosion then
dilation) and then closing (dilation then erosion), in that fixed order,
with the same ellipse structuring element; that element is inscribed in
the `(2r+1) × (2r+1)` box, is symmetric under both axis reflections,
contains its center and the box-touching axis extremes `(0, ±r)` and
`(±r, 0)`; the function's own default radius is `r = 2`, while
`apply_feathering` always invokes the cleanup with `r = 4`, independently
of the feather width. -/
theorem open_close_structuring_element :
    (∀ (r : Nat) (a b : Int), (a, b) ∈ kernelOffsets r → a.natAbs ≤ r ∧ b.natAbs ≤ r)
      ∧ (∀ (r : Nat) (a b : Int),
          ((a, b) ∈ kernelOffsets r ↔ (-a, b) ∈ kernelOffsets r)
            ∧ ((a, b) ∈ kernelOffsets r ↔ (a, -b) ∈ kernelOffsets r))
      ∧ (∀ r : Nat, ((0 : Int), (0 : Int)) ∈ kernelOffsets r
          ∧ ((0 : Int), (r : Int)) ∈ kernelOffsets r
          ∧ ((r : Int), (0 : Int)) ∈ kernelOffsets r)
      ∧ (∀ (m : Mask) (r : Nat), smooth_open_close m r = closing (opening m r) r
          ∧ opening m r = dilate (erode m r) r ∧ closing m r = erode (dilate m r) r)
      ∧ (∀ m : Mask, smooth_open_close m smooth_open_close_default_r = smooth_open_close m 2)
      ∧ ∀ (mask : Mask) (w : ℝ),
          apply_feathering mask FeatheringMethod.none w
            = Except.ok (boolToReal (smooth_open_close mask 4)) := by
  refine ⟨?_, ?_, ?_, fun m r => ⟨rfl, rfl, rfl⟩, fun m => rfl, fun mask w => rfl⟩
  · intro r a b hmem
    have h := mem_kernelOffsets.mp hmem
    exact ⟨h.1, h.2.trans (ellipseDx_le r _)⟩
  · intro r a b
    constructor
    · rw [mem_kernelOffsets, mem_kernelOffsets, Int.natAbs_neg]
    · rw [mem_kernelOffsets, mem_kernelOffsets, Int.natAbs_neg]
  · intro r
    refine ⟨zero_mem_kernelOffsets r, ?_, ?_⟩
    · rw [mem_kernelOffsets]
      constructor
      · simp
      · simp [ellipseDx_zero]
    · rw [mem_kernelOffsets]
      constructor
      · simp
      · simp

/-- Witness for the amended C8: the offset `(1, 4)` of the radius-4
element lies inside the 9 × 9 box. -/
theorem open_close_witness :
    (1 : Int).natAbs ≤ 4 ∧ (4 : Int).natAbs ≤ 4 :=
  open_close_structuring_element.1 4 1 4 (by decide)

end Imgr

